import Mathlib

/-
Verification of the paragraph-chunking pipeline of scripts/build_dataset.py.

Python strings are modelled as lists of characters (Str), so that len,
" ".join and str.strip become List.length, joinSp and pyStrip.  The chunking
function chunk_paragraphs and the embedding stage (fetch_embedding, the loop
in main) are translated statement by statement; the integer parameters
max_chars, min_chars and max_chunks stay integers (Int), and the final Python
slice chunks[:max_chunks] is modelled by pyTake, including its behaviour on a
negative bound.
-/

/-- A Python string, modelled as its list of characters (code points). -/
abbrev Str := List Char

/-- Python str.strip with no argument: remove leading and trailing whitespace
characters. -/
def pyStrip (s : Str) : Str :=
  ((s.dropWhile Char.isWhitespace).reverse.dropWhile Char.isWhitespace).reverse

/-- Python " ".join(parts): a single space between consecutive parts. -/
def joinSp : List Str → Str
  | [] => []
  | [p] => p
  | p :: q :: rest => p ++ ' ' :: joinSp (q :: rest)

/-- Python slice l[:n] for an arbitrary integer n: a nonnegative bound takes
a prefix, a negative bound counts from the end, clamped at the empty list. -/
def pyTake (n : Int) (l : List α) : List α :=
  if 0 ≤ n then l.take n.toNat else l.take ((l.length : Int) + n).toNat

/-- The running buffer_len counter of chunk_paragraphs: every paragraph
appended to the buffer contributes len(paragraph) + 1. -/
def bufSum : List Str → Nat
  | [] => 0
  | p :: rest => p.length + 1 + bufSum rest

/-- The string a flush of the buffer would emit:
chunk = " ".join(buffer).strip(). -/
def emitChunk (buffer : List Str) : Str := pyStrip (joinSp buffer)

/-- One flush of the buffer: append the stripped join to chunks exactly when
len(chunk) >= min_chars. -/
def flushChunk (chunks buffer : List Str) (min_chars : Int) : List Str :=
  if min_chars ≤ ((emitChunk buffer).length : Int) then chunks ++ [emitChunk buffer]
  else chunks

/-- The for-loop of chunk_paragraphs over the remaining paragraphs, carrying
the accumulated chunks, the buffer and buffer_len.  A paragraph first flushes
a full buffer (breaking out of the loop when len(chunks) >= max_chunks, with
the buffer just reset, so the trailing flush does nothing) and is then pushed
onto the buffer; after the last paragraph a non-empty buffer is flushed once
more, guarded by len(chunks) < max_chunks. -/
def chunkLoop (max_chars min_chars max_chunks : Int)
    (chunks buffer : List Str) (buffer_len : Nat) : List Str → List Str
  | [] =>
    if buffer ≠ [] ∧ (chunks.length : Int) < max_chunks then
      flushChunk chunks buffer min_chars
    else chunks
  | paragraph :: rest =>
    if buffer ≠ [] ∧ max_chars < (buffer_len : Int) + paragraph.length + 1 then
      if max_chunks ≤ ((flushChunk chunks buffer min_chars).length : Int) then
        flushChunk chunks buffer min_chars
      else
        chunkLoop max_chars min_chars max_chunks (flushChunk chunks buffer min_chars)
          [paragraph] (paragraph.length + 1) rest
    else
      chunkLoop max_chars min_chars max_chunks chunks (buffer ++ [paragraph])
        (buffer_len + paragraph.length + 1) rest

/-- chunk_paragraphs from scripts/build_dataset.py: greedy accumulation of
paragraphs into chunks, ending with the defensive slice chunks[:max_chunks]. -/
def chunk_paragraphs (paragraphs : List Str)
    (max_chars min_chars max_chunks : Int) : List Str :=
  pyTake max_chunks (chunkLoop max_chars min_chars max_chunks [] [] 0 paragraphs)

/-- The runs decomposition of an input paragraph list: the given blocks occur
in order as pairwise disjoint contiguous segments of the input, with dropped
paragraphs in between. -/
inductive Chained : List (List Str) → List Str → Prop
  | nil (ps : List Str) : Chained [] ps
  | skip (p : Str) (ps : List Str) (rs : List (List Str)) :
      Chained rs ps → Chained rs (p :: ps)
  | block (r : List Str) (ps : List Str) (rs : List (List Str)) :
      Chained rs ps → Chained (r :: rs) (r ++ ps)

/-- The embedding dimension pinned by the script (DIM = 1536). -/
def DIM : Nat := 1536

/-- One response of the embedding provider, as far as the script inspects it:
an HTTP status code and the returned vector.  The numeric entries are kept
abstract. -/
structure EmbedResponse (α : Type) where
  status_code : Int
  embedding : List α

/-- fetch_embedding from scripts/build_dataset.py: a non-200 status raises
RuntimeError, a vector whose length differs from DIM raises ValueError,
otherwise the vector is returned.  Raising is modelled by Except.error. -/
def fetch_embedding (resp : EmbedResponse α) : Except String (List α) :=
  if resp.status_code ≠ 200 then
    Except.error "OpenAI embeddings failed"
  else if resp.embedding.length ≠ DIM then
    Except.error "Unexpected embedding dim"
  else
    Except.ok resp.embedding

/-- The embedding loop of main: chunks are embedded one by one in order, the
i-th call consuming the provider response for index i; the first failure
aborts the whole run. -/
def embedChunks (provider : Nat → EmbedResponse α) :
    Nat → List Str → Except String (List (Str × List α))
  | _, [] => Except.ok []
  | i, chunk :: rest =>
    match fetch_embedding (provider i) with
    | Except.error e => Except.error e
    | Except.ok emb =>
      match embedChunks provider (i + 1) rest with
      | Except.error e => Except.error e
      | Except.ok tail => Except.ok ((chunk, emb) :: tail)

/-- main from scripts/build_dataset.py, from the point where the paragraphs
have been extracted: empty paragraphs or empty chunking abort (SystemExit),
then every chunk is embedded, and only when all embedding calls succeeded is
the dataset handed to build_sql and written to the output file.  The Except
value Except.ok d stands for the run that writes the file built from d;
Except.error stands for an aborted run with no output file. -/
def runPipeline (paragraphs : List Str) (max_chars min_chars max_chunks : Int)
    (provider : Nat → EmbedResponse α) : Except String (List (Str × List α)) :=
  if paragraphs = [] then Except.error "No text extracted from PDF."
  else if chunk_paragraphs paragraphs max_chars min_chars max_chunks = [] then
    Except.error "Chunking produced no output."
  else
    embedChunks provider 0 (chunk_paragraphs paragraphs max_chars min_chars max_chunks)

/-- The list of runs a single flush contributes to the output: the buffer
itself when its stripped join reaches min_chars, nothing otherwise. -/
def emittedRuns (buffer : List Str) (min_chars : Int) : List (List Str) :=
  if min_chars ≤ ((emitChunk buffer).length : Int) then [buffer] else []

theorem flushChunk_eq (chunks buffer : List Str) (m : Int) :
    flushChunk chunks buffer m = chunks ++ (emittedRuns buffer m).map emitChunk := by
  unfold flushChunk emittedRuns
  by_cases h : m ≤ ((emitChunk buffer).length : Int) <;> simp [h]

theorem bufSum_append (l : List Str) (p : Str) :
    bufSum (l ++ [p]) = bufSum l + (p.length + 1) := by
  induction l with
  | nil => simp [bufSum]
  | cons q t ih => simp [bufSum, ih]; omega

theorem joinSp_length (buffer : List Str) (h : buffer ≠ []) :
    (joinSp buffer).length + 1 = bufSum buffer := by
  induction buffer with
  | nil => exact absurd rfl h
  | cons p t ih =>
    cases t with
    | nil => simp [joinSp, bufSum]
    | cons q t2 =>
      have h2 := ih (by simp)
      show (p ++ ' ' :: joinSp (q :: t2)).length + 1 = p.length + 1 + bufSum (q :: t2)
      simp only [List.length_append, List.length_cons]
      omega

theorem length_dropWhile_le_self (p : Char → Bool) (l : Str) :
    (l.dropWhile p).length ≤ l.length := by
  induction l with
  | nil => simp
  | cons a t ih =>
    rw [List.dropWhile_cons]
    split
    · exact le_trans ih (by simp)
    · simp

theorem pyStrip_length_le (s : Str) : (pyStrip s).length ≤ s.length := by
  unfold pyStrip
  rw [List.length_reverse]
  calc ((s.dropWhile Char.isWhitespace).reverse.dropWhile Char.isWhitespace).length
      ≤ (s.dropWhile Char.isWhitespace).reverse.length :=
        length_dropWhile_le_self _ _
    _ = (s.dropWhile Char.isWhitespace).length := List.length_reverse _
    _ ≤ s.length := length_dropWhile_le_self _ _

theorem chained_append_left (qs : List Str) {rs : List (List Str)} {ps : List Str}
    (h : Chained rs ps) : Chained rs (qs ++ ps) := by
  induction qs with
  | nil => simpa using h
  | cons q t ih => exact Chained.skip q (t ++ ps) rs ih

theorem chained_take {rs : List (List Str)} {ps : List Str} (h : Chained rs ps) :
    ∀ k, Chained (rs.take k) ps := by
  induction h with
  | nil ps => intro k; simpa using Chained.nil ps
  | skip p ps rs h ih => intro k; exact Chained.skip p ps _ (ih k)
  | block r ps rs h ih =>
    intro k
    cases k with
    | zero => simpa using chained_append_left r (Chained.nil ps)
    | succ k2 => simpa using Chained.block r ps (rs.take k2) (ih k2)

theorem chained_flatten_sublist {rs : List (List Str)} {ps : List Str}
    (h : Chained rs ps) : rs.flatten.Sublist ps := by
  induction h with
  | nil ps => simp
  | skip p ps rs h ih => exact ih.cons p
  | block r ps rs h ih => simpa using (List.Sublist.refl r).append ih

theorem chunkLoop_nil (a b c : Int) (chunks buffer : List Str) (bl : Nat) :
    chunkLoop a b c chunks buffer bl []
      = if buffer ≠ [] ∧ (chunks.length : Int) < c then flushChunk chunks buffer b
        else chunks := rfl

theorem chunkLoop_cons (a b c : Int) (chunks buffer : List Str) (bl : Nat)
    (p : Str) (rest : List Str) :
    chunkLoop a b c chunks buffer bl (p :: rest)
      = if buffer ≠ [] ∧ a < (bl : Int) + p.length + 1 then
          (if c ≤ ((flushChunk chunks buffer b).length : Int) then
            flushChunk chunks buffer b
          else chunkLoop a b c (flushChunk chunks buffer b) [p] (p.length + 1) rest)
        else chunkLoop a b c chunks (buffer ++ [p]) (bl + p.length + 1) rest := rfl

theorem chunkLoop_runs (max_chars min_chars max_chunks : Int) (ps : List Str) :
    ∀ (chunks buffer : List Str) (buffer_len : Nat),
    buffer_len = bufSum buffer →
    (2 ≤ buffer.length → (bufSum buffer : Int) ≤ max_chars) →
    ∃ runs : List (List Str),
      chunkLoop max_chars min_chars max_chunks chunks buffer buffer_len ps
        = chunks ++ runs.map emitChunk
      ∧ Chained runs (buffer ++ ps)
      ∧ ∀ r ∈ runs, r ≠ [] ∧ min_chars ≤ ((emitChunk r).length : Int)
          ∧ (2 ≤ r.length → (bufSum r : Int) ≤ max_chars) := by
  induction ps with
  | nil =>
    intro chunks buffer buffer_len hlen hbound
    rw [chunkLoop_nil]
    by_cases h : buffer ≠ [] ∧ (chunks.length : Int) < max_chunks
    · rw [if_pos h]
      refine ⟨emittedRuns buffer min_chars, flushChunk_eq _ _ _, ?_, ?_⟩
      · unfold emittedRuns
        split
        · exact Chained.block buffer [] [] (Chained.nil [])
        · exact Chained.nil _
      · intro r hr
        unfold emittedRuns at hr
        split at hr
        · rename_i hg
          have hrb : r = buffer := List.mem_singleton.mp hr
          subst hrb
          exact ⟨h.1, hg, hbound⟩
        · simp at hr
    · rw [if_neg h]
      exact ⟨[], by simp, Chained.nil _, by simp⟩
  | cons p rest ih =>
    intro chunks buffer buffer_len hlen hbound
    rw [chunkLoop_cons]
    by_cases hflush : buffer ≠ [] ∧ max_chars < (buffer_len : Int) + p.length + 1
    · rw [if_pos hflush]
      by_cases hbreak : max_chunks ≤ ((flushChunk chunks buffer min_chars).length : Int)
      · rw [if_pos hbreak]
        refine ⟨emittedRuns buffer min_chars, flushChunk_eq _ _ _, ?_, ?_⟩
        · unfold emittedRuns
          split
          · exact Chained.block buffer (p :: rest) [] (Chained.nil _)
          · exact Chained.nil _
        · intro r hr
          unfold emittedRuns at hr
          split at hr
          · rename_i hg
            have hrb : r = buffer := List.mem_singleton.mp hr
            subst hrb
            exact ⟨hflush.1, hg, hbound⟩
          · simp at hr
      · rw [if_neg hbreak]
        obtain ⟨runs2, heq, hch, hprops⟩ := ih (flushChunk chunks buffer min_chars) [p]
          (p.length + 1) (by simp [bufSum]) (by intro h2; simp at h2)
        refine ⟨emittedRuns buffer min_chars ++ runs2, ?_, ?_, ?_⟩
        · rw [heq, flushChunk_eq, List.map_append, List.append_assoc]
        · unfold emittedRuns
          split
          · exact Chained.block buffer (p :: rest) runs2 hch
          · exact chained_append_left buffer hch
        · intro r hr
          rcases List.mem_append.mp hr with hr1 | hr2
          · unfold emittedRuns at hr1
            split at hr1
            · rename_i hg
              have hrb : r = buffer := List.mem_singleton.mp hr1
              subst hrb
              exact ⟨hflush.1, hg, hbound⟩
            · simp at hr1
          · exact hprops r hr2
    · rw [if_neg hflush]
      push_neg at hflush
      have hlen2 : buffer_len + p.length + 1 = bufSum (buffer ++ [p]) := by
        rw [bufSum_append]
        omega
      have hbound2 : 2 ≤ (buffer ++ [p]).length → (bufSum (buffer ++ [p]) : Int) ≤ max_chars := by
        intro h2
        have hb : buffer ≠ [] := by
          intro hbe
          rw [hbe] at h2
          simp at h2
        have hle := hflush hb
        rw [bufSum_append]
        push_cast
        omega
      obtain ⟨runs2, heq, hch, hprops⟩ :=
        ih chunks (buffer ++ [p]) (buffer_len + p.length + 1) hlen2 hbound2
      refine ⟨runs2, heq, ?_, hprops⟩
      rw [List.append_assoc] at hch
      exact hch

theorem pyTake_map (n : Int) (f : α → β) (l : List α) :
    pyTake n (l.map f) = (pyTake n l).map f := by
  unfold pyTake
  rw [List.length_map]
  split <;> rw [← List.map_take]

theorem pyTake_sublist (n : Int) (l : List α) : (pyTake n l).Sublist l := by
  unfold pyTake
  split <;> exact List.take_sublist _ _

theorem pyTake_subset (n : Int) (l : List α) : ∀ a ∈ pyTake n l, a ∈ l :=
  fun _ ha => (pyTake_sublist n l).subset ha

theorem pyTake_length_le (n : Int) (l : List α) (hn : 0 ≤ n) :
    ((pyTake n l).length : Int) ≤ n := by
  unfold pyTake
  rw [if_pos hn, List.length_take]
  have h1 : n.toNat ⊓ l.length ≤ n.toNat := min_le_left _ _
  omega

theorem pyTake_length_eq (n : Int) (l : List α) (hn : 0 ≤ n) (hl : n ≤ (l.length : Int)) :
    ((pyTake n l).length : Int) = n := by
  unfold pyTake
  rw [if_pos hn, List.length_take]
  have h1 : n.toNat ≤ l.length := by omega
  rw [min_eq_left h1]
  omega

theorem chained_pyTake (n : Int) {rs : List (List Str)} {ps : List Str}
    (h : Chained rs ps) : Chained (pyTake n rs) ps := by
  unfold pyTake
  split <;> exact chained_take h _

theorem chunk_paragraphs_runs (paragraphs : List Str) (max_chars min_chars max_chunks : Int) :
    ∃ runs : List (List Str),
      Chained runs paragraphs
      ∧ chunk_paragraphs paragraphs max_chars min_chars max_chunks = runs.map emitChunk
      ∧ ∀ r ∈ runs, r ≠ [] ∧ min_chars ≤ ((emitChunk r).length : Int)
          ∧ (2 ≤ r.length → (bufSum r : Int) ≤ max_chars) := by
  obtain ⟨runs0, heq, hch, hprops⟩ :=
    chunkLoop_runs max_chars min_chars max_chunks paragraphs [] [] 0 rfl
      (by intro h; simp at h)
  refine ⟨pyTake max_chunks runs0, ?_, ?_, ?_⟩
  · exact chained_pyTake max_chunks hch
  · unfold chunk_paragraphs
    rw [heq]
    simp only [List.nil_append]
    exact pyTake_map _ _ _
  · intro r hr
    exact hprops r (pyTake_subset _ _ r hr)

theorem dropWhile_eq_self (l : Str)
    (h : ∀ c, l.head? = some c → Char.isWhitespace c = false) :
    l.dropWhile Char.isWhitespace = l := by
  cases l with
  | nil => rfl
  | cons a t =>
    rw [List.dropWhile_cons, h a rfl]
    simp

theorem head_not_ws_of_dropWhile_eq (l : Str)
    (h : l.dropWhile Char.isWhitespace = l) :
    ∀ c, l.head? = some c → Char.isWhitespace c = false := by
  intro c hc
  cases l with
  | nil => simp at hc
  | cons a t =>
    have hac : a = c := by simpa using hc
    subst hac
    cases hb : Char.isWhitespace a
    · rfl
    · rw [List.dropWhile_cons, hb] at h
      simp only [if_true, ite_true, eq_self_iff_true] at h
      have hle := length_dropWhile_le_self Char.isWhitespace t
      rw [h] at hle
      simp at hle

theorem dropWhile_eq_of_length (p : Char → Bool) (l : Str)
    (h : (l.dropWhile p).length = l.length) : l.dropWhile p = l := by
  cases l with
  | nil => rfl
  | cons a t =>
    cases hpa : p a
    · rw [List.dropWhile_cons, hpa]
      simp
    · rw [List.dropWhile_cons, hpa] at h
      simp only [if_true, ite_true, eq_self_iff_true, List.length_cons] at h
      have hle := length_dropWhile_le_self p t
      omega

theorem dropWhile_eq_of_pyStrip_eq (s : Str) (h : pyStrip s = s) :
    s.dropWhile Char.isWhitespace = s
    ∧ s.reverse.dropWhile Char.isWhitespace = s.reverse := by
  have hlen : (pyStrip s).length = s.length := by rw [h]
  have h1 : (pyStrip s).length
      = ((s.dropWhile Char.isWhitespace).reverse.dropWhile Char.isWhitespace).length := by
    unfold pyStrip
    rw [List.length_reverse]
  have h2 : ((s.dropWhile Char.isWhitespace).reverse.dropWhile Char.isWhitespace).length
      ≤ (s.dropWhile Char.isWhitespace).length := by
    calc ((s.dropWhile Char.isWhitespace).reverse.dropWhile Char.isWhitespace).length
        ≤ (s.dropWhile Char.isWhitespace).reverse.length := length_dropWhile_le_self _ _
      _ = (s.dropWhile Char.isWhitespace).length := List.length_reverse _
  have h3 := length_dropWhile_le_self Char.isWhitespace s
  have hd : (s.dropWhile Char.isWhitespace).length = s.length := by omega
  have hds : s.dropWhile Char.isWhitespace = s := dropWhile_eq_of_length _ _ hd
  refine ⟨hds, ?_⟩
  apply dropWhile_eq_of_length
  rw [hds] at h1
  rw [List.length_reverse]
  omega

theorem pyStrip_head (s : Str) (h : pyStrip s = s) :
    ∀ c, s.head? = some c → Char.isWhitespace c = false :=
  head_not_ws_of_dropWhile_eq s (dropWhile_eq_of_pyStrip_eq s h).1

theorem pyStrip_last (s : Str) (h : pyStrip s = s) :
    ∀ c, s.getLast? = some c → Char.isWhitespace c = false := by
  intro c hc
  apply head_not_ws_of_dropWhile_eq s.reverse (dropWhile_eq_of_pyStrip_eq s h).2
  rw [List.head?_reverse]
  exact hc

theorem pyStrip_eq_self (s : Str)
    (hhead : ∀ c, s.head? = some c → Char.isWhitespace c = false)
    (hlast : ∀ c, s.getLast? = some c → Char.isWhitespace c = false) :
    pyStrip s = s := by
  unfold pyStrip
  have h2 : ∀ c, s.reverse.head? = some c → Char.isWhitespace c = false := by
    intro c hc
    rw [List.head?_reverse] at hc
    exact hlast c hc
  rw [dropWhile_eq_self s hhead, dropWhile_eq_self s.reverse h2, List.reverse_reverse]

theorem getLast?_some_of_ne_nil (l : Str) (h : l ≠ []) : ∃ c, l.getLast? = some c := by
  cases l with
  | nil => exact absurd rfl h
  | cons a t => exact ⟨t.getLast?.getD a, by rw [List.getLast?_cons]⟩

theorem joinSp_head (p : Str) (t : List Str) (hp : p ≠ []) :
    (joinSp (p :: t)).head? = p.head? := by
  cases t with
  | nil => rfl
  | cons q t2 =>
    show (p ++ ' ' :: joinSp (q :: t2)).head? = p.head?
    rw [List.head?_append]
    cases p with
    | nil => exact absurd rfl hp
    | cons a u => rfl

theorem joinSp_getLast (p : Str) (t : List Str) :
    (∀ r ∈ p :: t, r ≠ []) →
    ∃ q c, q ∈ p :: t ∧ q.getLast? = some c ∧ (joinSp (p :: t)).getLast? = some c := by
  induction t generalizing p with
  | nil =>
    intro hall
    obtain ⟨c, hc⟩ := getLast?_some_of_ne_nil p (hall p (by simp))
    exact ⟨p, c, by simp, hc, hc⟩
  | cons q t2 ih =>
    intro hall
    obtain ⟨q0, c0, hmem, hq0, hj⟩ := ih q (fun r hr => hall r (List.mem_cons_of_mem p hr))
    refine ⟨q0, c0, List.mem_cons_of_mem p hmem, hq0, ?_⟩
    show (p ++ ' ' :: joinSp (q :: t2)).getLast? = some c0
    rw [List.getLast?_append, List.getLast?_cons, hj]
    rfl

theorem emitChunk_eq_joinSp (r : List Str) (hne : r ≠ [])
    (hall : ∀ p ∈ r, p ≠ [] ∧ pyStrip p = p) : emitChunk r = joinSp r := by
  unfold emitChunk
  cases r with
  | nil => exact absurd rfl hne
  | cons p t =>
    apply pyStrip_eq_self
    · intro c hc
      rw [joinSp_head p t (hall p (List.mem_cons_self p t)).1] at hc
      exact pyStrip_head p (hall p (List.mem_cons_self p t)).2 c hc
    · intro c hc
      obtain ⟨q0, c0, hmem, hq0, hj⟩ :=
        joinSp_getLast p t (fun r hr => (hall r hr).1)
      rw [hj] at hc
      have hcc : c0 = c := by simpa using hc
      subst hcc
      exact pyStrip_last q0 (hall q0 hmem).2 c0 hq0

theorem pyTake_zero (l : List α) : pyTake 0 l = [] := by
  unfold pyTake
  simp

theorem chunkLoop_reach (max_chars min_chars max_chunks : Int) (ps : List Str) :
    ∀ (chunks buffer : List Str) (buffer_len : Nat),
    (chunks.length : Int) < max_chunks →
    ∃ k ≤ ps.length,
      chunkLoop max_chars min_chars max_chunks chunks buffer buffer_len ps
        = chunkLoop max_chars min_chars max_chunks chunks buffer buffer_len (ps.take k)
      ∧ (k ≠ ps.length →
          max_chunks
            ≤ ((chunkLoop max_chars min_chars max_chunks chunks buffer buffer_len ps).length : Int)) := by
  induction ps with
  | nil =>
    intro chunks buffer buffer_len hlt
    exact ⟨0, Nat.le_refl 0, rfl, fun hne => absurd rfl hne⟩
  | cons p rest ih =>
    intro chunks buffer buffer_len hlt
    by_cases hflush : buffer ≠ [] ∧ max_chars < (buffer_len : Int) + p.length + 1
    · by_cases hbreak : max_chunks ≤ ((flushChunk chunks buffer min_chars).length : Int)
      · refine ⟨0, Nat.zero_le _, ?_, ?_⟩
        · rw [chunkLoop_cons, if_pos hflush, if_pos hbreak, List.take_zero,
            chunkLoop_nil, if_pos ⟨hflush.1, hlt⟩]
        · intro _
          rw [chunkLoop_cons, if_pos hflush, if_pos hbreak]
          exact hbreak
      · obtain ⟨k, hk, heq, hcap⟩ :=
          ih (flushChunk chunks buffer min_chars) [p] (p.length + 1) (by omega)
        refine ⟨k + 1, by simpa using Nat.succ_le_succ hk, ?_, ?_⟩
        · rw [chunkLoop_cons, if_pos hflush, if_neg hbreak, heq, List.take_succ_cons,
            chunkLoop_cons, if_pos hflush, if_neg hbreak]
        · intro hne
          rw [chunkLoop_cons, if_pos hflush, if_neg hbreak]
          exact hcap (fun h2 => hne (by simp [h2]))
    · obtain ⟨k, hk, heq, hcap⟩ :=
        ih chunks (buffer ++ [p]) (buffer_len + p.length + 1) hlt
      refine ⟨k + 1, by simpa using Nat.succ_le_succ hk, ?_, ?_⟩
      · rw [chunkLoop_cons, if_neg hflush, heq, List.take_succ_cons,
          chunkLoop_cons, if_neg hflush]
      · intro hne
        rw [chunkLoop_cons, if_neg hflush]
        exact hcap (fun h2 => hne (by simp [h2]))

theorem mem_of_chained_mem {runs : List (List Str)} {ps : List Str}
    (hch : Chained runs ps) {r : List Str} (hr : r ∈ runs) {p : Str} (hp : p ∈ r) :
    p ∈ ps :=
  (chained_flatten_sublist hch).subset (List.mem_flatten.mpr ⟨r, hr, hp⟩)

theorem emitChunk_singleton (p : Str) (h : pyStrip p = p) : emitChunk [p] = p := by
  unfold emitChunk
  exact h

theorem length_le_flatten (rs : List (List Str)) (h : ∀ r ∈ rs, r ≠ []) :
    rs.length ≤ rs.flatten.length := by
  induction rs with
  | nil => simp
  | cons r t ih =>
    have hr : 0 < r.length := List.length_pos.mpr (h r (List.mem_cons_self r t))
    have ht := ih (fun x hx => h x (List.mem_cons_of_mem r hx))
    rw [List.flatten_cons, List.length_append, List.length_cons]
    omega

theorem embedChunks_cons {α : Type} (provider : Nat → EmbedResponse α)
    (i : Nat) (chunk : Str) (rest : List Str) :
    embedChunks provider i (chunk :: rest)
      = match fetch_embedding (provider i) with
        | Except.error e => Except.error e
        | Except.ok emb =>
          match embedChunks provider (i + 1) rest with
          | Except.error e => Except.error e
          | Except.ok tail => Except.ok ((chunk, emb) :: tail) := rfl

theorem fetch_embedding_error {α : Type} (resp : EmbedResponse α)
    (hfail : resp.status_code ≠ 200 ∨ resp.embedding.length ≠ DIM) :
    ∃ e, fetch_embedding resp = Except.error e := by
  unfold fetch_embedding
  by_cases hs : resp.status_code ≠ 200
  · rw [if_pos hs]
    exact ⟨_, rfl⟩
  · rw [if_neg hs]
    have hd : resp.embedding.length ≠ DIM := by
      rcases hfail with h | h
      · exact absurd h hs
      · exact h
    rw [if_pos hd]
    exact ⟨_, rfl⟩

theorem embedChunks_error {α : Type} (provider : Nat → EmbedResponse α) :
    ∀ (chunks : List Str) (start : Nat),
    (∃ j, j < chunks.length
        ∧ ((provider (start + j)).status_code ≠ 200
            ∨ (provider (start + j)).embedding.length ≠ DIM)) →
    ∃ e, embedChunks provider start chunks = Except.error e := by
  intro chunks
  induction chunks with
  | nil =>
    rintro start ⟨j, hj, _⟩
    simp at hj
  | cons c rest ih =>
    rintro start ⟨j, hj, hfail⟩
    cases j with
    | zero =>
      rw [Nat.add_zero] at hfail
      obtain ⟨e, he⟩ := fetch_embedding_error (provider start) hfail
      exact ⟨e, by rw [embedChunks_cons, he]⟩
    | succ j2 =>
      cases hfe : fetch_embedding (provider start) with
      | error e2 => exact ⟨e2, by rw [embedChunks_cons, hfe]⟩
      | ok emb =>
        obtain ⟨e, he⟩ := ih (start + 1)
          ⟨j2, by simpa using hj, by rw [show start + 1 + j2 = start + (j2 + 1) by omega]; exact hfail⟩
        exact ⟨e, by rw [embedChunks_cons, hfe, he]⟩

/-- Claim C1: for trimmed input paragraphs, every chunk emitted by
chunk_paragraphs either has length at most max_chars, or is exactly one
single input paragraph whose own length exceeds max_chars. -/
theorem spec_chunk_size_bound (paragraphs : List Str)
    (max_chars min_chars max_chunks : Int)
    (htrim : ∀ p ∈ paragraphs, pyStrip p = p) :
    ∀ c ∈ chunk_paragraphs paragraphs max_chars min_chars max_chunks,
      (c.length : Int) ≤ max_chars
      ∨ (c ∈ paragraphs ∧ max_chars < (c.length : Int)) := by
  obtain ⟨runs, hch, heq, hprops⟩ :=
    chunk_paragraphs_runs paragraphs max_chars min_chars max_chunks
  intro c hc
  rw [heq] at hc
  obtain ⟨r, hr, hrc⟩ := List.mem_map.mp hc
  obtain ⟨hne, hmin, hbound⟩ := hprops r hr
  rcases r with _ | ⟨p, t⟩
  · exact absurd rfl hne
  rcases t with _ | ⟨q, t2⟩
  · have hp : p ∈ paragraphs :=
      mem_of_chained_mem hch hr (List.mem_singleton.mpr rfl)
    have he : emitChunk [p] = p := emitChunk_singleton p (htrim p hp)
    rw [← hrc, he]
    by_cases hlen : (p.length : Int) ≤ max_chars
    · exact Or.inl hlen
    · exact Or.inr ⟨hp, by omega⟩
  · left
    have hbs := hbound (by simp)
    have hj := joinSp_length (p :: q :: t2) (by simp)
    have hstrip : (emitChunk (p :: q :: t2)).length ≤ (joinSp (p :: q :: t2)).length :=
      pyStrip_length_le _
    rw [← hrc]
    omega

/-- Claim C1 witness: the size bound evaluated on the two-paragraph input of
scenario 2. -/
theorem spec_chunk_size_bound_witness :
    (∀ p ∈ [List.replicate 50 'A', List.replicate 80 'B'], pyStrip p = p)
    ∧ ∀ c ∈ chunk_paragraphs [List.replicate 50 'A', List.replicate 80 'B'] 60 10 10,
        (c.length : Int) ≤ 60
        ∨ (c ∈ [List.replicate 50 'A', List.replicate 80 'B'] ∧ 60 < (c.length : Int)) :=
  ⟨by decide, spec_chunk_size_bound _ 60 10 10 (by decide)⟩

/-- Claim C2 counterexample: with the negative bound max_chunks = -1 the
Python slice chunks[:max_chunks] still returns a list whose length, zero,
exceeds max_chunks, so the cap does not hold for every choice of the integer
parameters. -/
theorem spec_chunk_cap_counterexample :
    ¬ (((chunk_paragraphs [] 10 0 (-1)).length : Int) ≤ -1) := by decide

/-- Claim C2 (amended): for a nonnegative max_chunks the number of chunks
never exceeds max_chunks, and the output equals the output on a prefix of the
input; when that prefix is proper (paragraphs were discarded mid-run), the
output has reached exactly max_chunks chunks. -/
theorem spec_chunk_cap_of_nonneg (paragraphs : List Str)
    (max_chars min_chars max_chunks : Int) (hk : 0 ≤ max_chunks) :
    ((chunk_paragraphs paragraphs max_chars min_chars max_chunks).length : Int) ≤ max_chunks
    ∧ ∃ k ≤ paragraphs.length,
        chunk_paragraphs paragraphs max_chars min_chars max_chunks
          = chunk_paragraphs (paragraphs.take k) max_chars min_chars max_chunks
        ∧ (k ≠ paragraphs.length →
            ((chunk_paragraphs paragraphs max_chars min_chars max_chunks).length : Int)
              = max_chunks) := by
  constructor
  · unfold chunk_paragraphs
    exact pyTake_length_le _ _ hk
  · by_cases h0 : 0 < max_chunks
    · obtain ⟨k, hkle, heq, hcap⟩ :=
        chunkLoop_reach max_chars min_chars max_chunks paragraphs [] [] 0 (by simpa using h0)
      refine ⟨k, hkle, ?_, ?_⟩
      · unfold chunk_paragraphs
        rw [heq]
      · intro hne
        unfold chunk_paragraphs
        exact pyTake_length_eq _ _ hk (hcap hne)
    · have hz : max_chunks = 0 := by omega
      subst hz
      refine ⟨0, Nat.zero_le _, ?_, ?_⟩
      · unfold chunk_paragraphs
        rw [pyTake_zero, pyTake_zero]
      · intro _
        unfold chunk_paragraphs
        rw [pyTake_zero]
        rfl

/-- Claim C2 witness: the cap statement evaluated at a concrete run that
discards trailing paragraphs once max_chunks chunks exist. -/
theorem spec_chunk_cap_of_nonneg_witness :
    (0 : Int) ≤ 1
    ∧ (((chunk_paragraphs [List.replicate 30 'a', List.replicate 30 'b',
            List.replicate 30 'c'] 35 1 1).length : Int) ≤ 1
        ∧ ∃ k ≤ ([List.replicate 30 'a', List.replicate 30 'b',
              List.replicate 30 'c'] : List Str).length,
            chunk_paragraphs [List.replicate 30 'a', List.replicate 30 'b',
                List.replicate 30 'c'] 35 1 1
              = chunk_paragraphs (([List.replicate 30 'a', List.replicate 30 'b',
                  List.replicate 30 'c'] : List Str).take k) 35 1 1
            ∧ (k ≠ ([List.replicate 30 'a', List.replicate 30 'b',
                  List.replicate 30 'c'] : List Str).length →
                ((chunk_paragraphs [List.replicate 30 'a', List.replicate 30 'b',
                    List.replicate 30 'c'] 35 1 1).length : Int) = 1)) :=
  ⟨by decide, spec_chunk_cap_of_nonneg _ 35 1 1 (by decide)⟩

/-- Claim C3: every chunk emitted by chunk_paragraphs has length at least
min_chars, and the output decomposes into disjoint contiguous runs of the
input, so the paragraphs of a rejected flush never reappear in a later
chunk. -/
theorem spec_chunk_min_length (paragraphs : List Str)
    (max_chars min_chars max_chunks : Int) :
    (∀ c ∈ chunk_paragraphs paragraphs max_chars min_chars max_chunks,
        min_chars ≤ (c.length : Int))
    ∧ ∃ runs : List (List Str),
        Chained runs paragraphs
        ∧ (∀ r ∈ runs, r ≠ [])
        ∧ chunk_paragraphs paragraphs max_chars min_chars max_chunks
            = runs.map emitChunk := by
  obtain ⟨runs, hch, heq, hprops⟩ :=
    chunk_paragraphs_runs paragraphs max_chars min_chars max_chunks
  constructor
  · intro c hc
    rw [heq] at hc
    obtain ⟨r, hr, hrc⟩ := List.mem_map.mp hc
    rw [← hrc]
    exact (hprops r hr).2.1
  · exact ⟨runs, hch, fun r hr => (hprops r hr).1, heq⟩

/-- Claim C4: the source paragraphs of the emitted chunks, taken chunk by
chunk in output order, form an order-preserving subsequence of the input
paragraph list. -/
theorem spec_chunk_order (paragraphs : List Str)
    (max_chars min_chars max_chunks : Int) :
    ∃ runs : List (List Str),
      chunk_paragraphs paragraphs max_chars min_chars max_chunks = runs.map emitChunk
      ∧ runs.flatten.Sublist paragraphs := by
  obtain ⟨runs, hch, heq, _⟩ :=
    chunk_paragraphs_runs paragraphs max_chars min_chars max_chunks
  exact ⟨runs, heq, chained_flatten_sublist hch⟩

/-- Claim C5: scenario 2 of the spec, computed on the concrete input. -/
theorem spec_scenario_two :
    chunk_paragraphs [List.replicate 50 'A', List.replicate 80 'B'] 60 10 10
      = [List.replicate 50 'A', List.replicate 80 'B'] := by decide

/-- Claim C6: chunk_paragraphs is total: every input, including degenerate
parameter choices, yields a well-defined list of strings, never longer than
the input paragraph list. -/
theorem spec_chunk_total (paragraphs : List Str)
    (max_chars min_chars max_chunks : Int) :
    ∃ out : List Str,
      chunk_paragraphs paragraphs max_chars min_chars max_chunks = out
      ∧ out.length ≤ paragraphs.length := by
  obtain ⟨runs, hch, heq, hprops⟩ :=
    chunk_paragraphs_runs paragraphs max_chars min_chars max_chunks
  refine ⟨runs.map emitChunk, heq, ?_⟩
  rw [List.length_map]
  exact le_trans (length_le_flatten runs (fun r hr => (hprops r hr).1))
    (chained_flatten_sublist hch).length_le

/-- Claim C7: chunk_paragraphs is deterministic: identical inputs and
parameters give identical outputs. -/
theorem spec_chunk_deterministic (ps1 ps2 : List Str) (a1 b1 c1 a2 b2 c2 : Int)
    (hps : ps1 = ps2) (ha : a1 = a2) (hb : b1 = b2) (hc : c1 = c2) :
    chunk_paragraphs ps1 a1 b1 c1 = chunk_paragraphs ps2 a2 b2 c2 := by
  subst hps
  subst ha
  subst hb
  subst hc
  rfl

/-- Claim C7 witness: determinism evaluated at a concrete repeated call. -/
theorem spec_chunk_deterministic_witness :
    ([List.replicate 30 'a'] : List Str) = [List.replicate 30 'a']
    ∧ chunk_paragraphs [List.replicate 30 'a'] 100 1 5
        = chunk_paragraphs [List.replicate 30 'a'] 100 1 5 :=
  ⟨rfl, spec_chunk_deterministic _ _ 100 1 5 100 1 5 rfl rfl rfl rfl⟩

/-- Claim C8: if any embedding request fails, with a non-200 status or a
vector whose length differs from DIM, the pipeline aborts with an error and
never produces the dataset that would be written to the SQL file. -/
theorem spec_no_partial_output {α : Type} (paragraphs : List Str)
    (max_chars min_chars max_chunks : Int) (provider : Nat → EmbedResponse α)
    (hfail : ∃ i, i < (chunk_paragraphs paragraphs max_chars min_chars max_chunks).length
        ∧ ((provider i).status_code ≠ 200 ∨ (provider i).embedding.length ≠ DIM)) :
    (∃ e, runPipeline paragraphs max_chars min_chars max_chunks provider = Except.error e)
    ∧ ∀ d, runPipeline paragraphs max_chars min_chars max_chunks provider ≠ Except.ok d := by
  have herr :
      ∃ e, runPipeline paragraphs max_chars min_chars max_chunks provider
        = Except.error e := by
    unfold runPipeline
    by_cases hps : paragraphs = []
    · rw [if_pos hps]
      exact ⟨_, rfl⟩
    · rw [if_neg hps]
      by_cases hch : chunk_paragraphs paragraphs max_chars min_chars max_chunks = []
      · rw [if_pos hch]
        exact ⟨_, rfl⟩
      · rw [if_neg hch]
        apply embedChunks_error
        obtain ⟨i, hi, hf⟩ := hfail
        exact ⟨i, hi, by rw [Nat.zero_add]; exact hf⟩
  refine ⟨herr, ?_⟩
  intro d hd
  obtain ⟨e, he⟩ := herr
  rw [he] at hd
  exact Except.noConfusion hd

/-- Claim C8 witness: a provider that always answers with status 500 aborts
the concrete pipeline run. -/
theorem spec_no_partial_output_witness :
    (∃ i, i < (chunk_paragraphs [List.replicate 30 'a'] 100 1 5).length
        ∧ (((fun _ => (⟨500, []⟩ : EmbedResponse Nat)) i).status_code ≠ 200
            ∨ ((fun _ => (⟨500, []⟩ : EmbedResponse Nat)) i).embedding.length ≠ DIM))
    ∧ ((∃ e, runPipeline [List.replicate 30 'a'] 100 1 5
            (fun _ => (⟨500, []⟩ : EmbedResponse Nat)) = Except.error e)
        ∧ ∀ d, runPipeline [List.replicate 30 'a'] 100 1 5
            (fun _ => (⟨500, []⟩ : EmbedResponse Nat)) ≠ Except.ok d) :=
  ⟨⟨0, by decide, Or.inl (by decide)⟩,
    spec_no_partial_output _ 100 1 5 _ ⟨0, by decide, Or.inl (by decide)⟩⟩

/-- Claim C9: for trimmed input paragraphs, every chunk built from two or
more paragraphs has length at most max_chars - 1, and a chunk of length
exactly max_chars can only be a single input paragraph. -/
theorem spec_chunk_strict_bound (paragraphs : List Str)
    (max_chars min_chars max_chunks : Int)
    (htrim : ∀ p ∈ paragraphs, pyStrip p = p) :
    (∃ runs : List (List Str),
        Chained runs paragraphs
        ∧ chunk_paragraphs paragraphs max_chars min_chars max_chunks = runs.map emitChunk
        ∧ ∀ r ∈ runs, 2 ≤ r.length → ((emitChunk r).length : Int) ≤ max_chars - 1)
    ∧ ∀ c ∈ chunk_paragraphs paragraphs max_chars min_chars max_chunks,
        (c.length : Int) = max_chars → c ∈ paragraphs := by
  obtain ⟨runs, hch, heq, hprops⟩ :=
    chunk_paragraphs_runs paragraphs max_chars min_chars max_chunks
  have hstrict : ∀ r ∈ runs, 2 ≤ r.length → ((emitChunk r).length : Int) ≤ max_chars - 1 := by
    intro r hr h2
    obtain ⟨hne, hmin, hbound⟩ := hprops r hr
    have hbs := hbound h2
    have hj := joinSp_length r hne
    have hstrip : (emitChunk r).length ≤ (joinSp r).length := pyStrip_length_le _
    omega
  refine ⟨⟨runs, hch, heq, hstrict⟩, ?_⟩
  intro c hc hlen
  rw [heq] at hc
  obtain ⟨r, hr, hrc⟩ := List.mem_map.mp hc
  obtain ⟨hne, _, _⟩ := hprops r hr
  rcases r with _ | ⟨p, t⟩
  · exact absurd rfl hne
  rcases t with _ | ⟨q, t2⟩
  · have hp : p ∈ paragraphs :=
      mem_of_chained_mem hch hr (List.mem_singleton.mpr rfl)
    have he : emitChunk [p] = p := emitChunk_singleton p (htrim p hp)
    rw [← hrc, he]
    exact hp
  · exfalso
    have hb := hstrict _ hr (by simp)
    rw [hrc] at hb
    omega

/-- Claim C9 witness: the strict bound evaluated on two trimmed paragraphs
that fit in one chunk. -/
theorem spec_chunk_strict_bound_witness :
    (∀ p ∈ [List.replicate 30 'a', List.replicate 40 'b'], pyStrip p = p)
    ∧ ((∃ runs : List (List Str),
          Chained runs [List.replicate 30 'a', List.replicate 40 'b']
          ∧ chunk_paragraphs [List.replicate 30 'a', List.replicate 40 'b'] 100 1 5
              = runs.map emitChunk
          ∧ ∀ r ∈ runs, 2 ≤ r.length → ((emitChunk r).length : Int) ≤ 100 - 1)
        ∧ ∀ c ∈ chunk_paragraphs [List.replicate 30 'a', List.replicate 40 'b'] 100 1 5,
            (c.length : Int) = 100 → c ∈ [List.replicate 30 'a', List.replicate 40 'b']) :=
  ⟨by decide, spec_chunk_strict_bound _ 100 1 5 (by decide)⟩

/-- Claim C10 counterexample: on a paragraph that carries a leading space the
emitted chunk is the stripped join, not the join itself, so no runs
decomposition reproduces the output by the plain single-space join. -/
theorem spec_contiguous_runs_counterexample :
    ¬ ∃ runs : List (List Str),
        Chained runs [' ' :: List.replicate 30 'a']
        ∧ chunk_paragraphs [' ' :: List.replicate 30 'a'] 100 1 5
            = runs.map joinSp := by
  rintro ⟨runs, hch, heq⟩
  have hout : chunk_paragraphs [' ' :: List.replicate 30 'a'] 100 1 5
      = [List.replicate 30 'a'] := by decide
  rw [hout] at heq
  rcases runs with _ | ⟨r, t⟩
  · simp at heq
  rcases t with _ | ⟨r2, t2⟩
  · have hjr : joinSp r = List.replicate 30 'a' := by
      simpa using heq.symm
    rcases r with _ | ⟨x, u⟩
    · simp [joinSp] at hjr
    · have hx : x = ' ' :: List.replicate 30 'a' :=
        List.mem_singleton.mp
          (mem_of_chained_mem hch (List.mem_singleton.mpr rfl)
            (List.mem_cons_self x u))
      have hhead : (joinSp (x :: u)).head? = x.head? :=
        joinSp_head x u (by rw [hx]; exact List.noConfusion)
      rw [hjr, hx] at hhead
      simp at hhead
  · simp at heq

/-- Claim C10 (amended): for inputs whose paragraphs are nonempty and
trimmed, every emitted chunk is exactly the single-space join of a contiguous
run of consecutive input paragraphs, and the runs of successive chunks are
pairwise disjoint and in increasing input order. -/
theorem spec_contiguous_runs (paragraphs : List Str)
    (max_chars min_chars max_chunks : Int)
    (hps : ∀ p ∈ paragraphs, p ≠ [] ∧ pyStrip p = p) :
    ∃ runs : List (List Str),
      Chained runs paragraphs
      ∧ (∀ r ∈ runs, r ≠ [])
      ∧ chunk_paragraphs paragraphs max_chars min_chars max_chunks = runs.map joinSp := by
  obtain ⟨runs, hch, heq, hprops⟩ :=
    chunk_paragraphs_runs paragraphs max_chars min_chars max_chunks
  refine ⟨runs, hch, fun r hr => (hprops r hr).1, ?_⟩
  rw [heq]
  apply List.map_congr_left
  intro r hr
  apply emitChunk_eq_joinSp r (hprops r hr).1
  intro p hp
  exact hps p (mem_of_chained_mem hch hr hp)

/-- Claim C10 witness: the contiguity statement evaluated on two trimmed
nonempty paragraphs. -/
theorem spec_contiguous_runs_witness :
    (∀ p ∈ [List.replicate 30 'a', List.replicate 40 'b'],
        p ≠ [] ∧ pyStrip p = p)
    ∧ ∃ runs : List (List Str),
        Chained runs [List.replicate 30 'a', List.replicate 40 'b']
        ∧ (∀ r ∈ runs, r ≠ [])
        ∧ chunk_paragraphs [List.replicate 30 'a', List.replicate 40 'b'] 200 1 5
            = runs.map joinSp :=
  ⟨by decide, spec_contiguous_runs _ 200 1 5 (by decide)⟩
